import Mathlib

/-!
Verification of the template resolution engine in
`.template/scripts/bootstrap/template_engine.py`.

Strings are modelled as `List Char`; the process environment is modelled as an
association list `List (String × String)` (Python `os.environ.get` becomes an
association-list lookup with a default).  Each Python function is translated
into a computable Lean function; the bounded-recursion structure of the
conditional resolver is made explicit with a fuel parameter, and a theorem
shows the fuel is irrelevant once it exceeds the input length.
-/

/-- Association-list lookup by string key, mirroring a Python `dict` lookup. -/
def assq {α : Type} (k : String) : List (String × α) → Option α
  | [] => none
  | (a, v) :: t => if a.data = k.data then some v else assq k t

/-- Model of `os.environ.get(k, d)`: look up `k` in the environment, defaulting to `d`. -/
def envGet (env : List (String × String)) (k d : String) : String :=
  (assq k env).getD d

/-- ASCII lower-casing of a character, as applied by `str.lower()` on the
strings this engine compares (`"true"` and environment toggles). -/
def asciiLowerChar (c : Char) : Char :=
  if 'A' ≤ c ∧ c ≤ 'Z' then Char.ofNat (c.toNat + 32) else c

/-- ASCII model of Python `str.lower()`. -/
def asciiLower (s : String) : String :=
  ⟨s.data.map asciiLowerChar⟩

/-- The `VARIABLES` registry: template variable name, environment key, default. -/
def VARIABLES : List (String × String × String) :=
  [ ("PROJECT_NAME",        ("PROJECT_NAME", "my-project")),
    ("PROJECT_NAME_SNAKE",  ("PROJECT_NAME_SNAKE", "my_project")),
    ("PROJECT_NAME_KEBAB",  ("PROJECT_NAME_KEBAB", "my-project")),
    ("PROJECT_DESCRIPTION", ("PROJECT_DESCRIPTION", "A new project")),
    ("GITHUB_ORG",          ("GITHUB_ORG", "myorg")),
    ("PYTHON_VERSION",      ("PYTHON_VERSION", "3.12")),
    ("GO_VERSION",          ("GO_VERSION", "1.22.0")),
    ("NODE_VERSION",        ("NODE_VERSION", "20")),
    ("RUST_VERSION",        ("RUST_VERSION", "stable")),
    ("POSTGRES_VERSION",    ("POSTGRES_VERSION", "16")),
    ("REDIS_VERSION",       ("REDIS_VERSION", "7")),
    ("DB_NAME",             ("DB_NAME", "app_dev")),
    ("DB_USER",             ("DB_USER", "app_user")),
    ("DB_PASSWORD",         ("DB_PASSWORD", "dev_password")),
    ("COVERAGE_THRESHOLD",  ("COVERAGE_THRESHOLD", "80")) ]

/-- Model of Python `s.split(".")`: split a character list at every dot. -/
def splitDots : List Char → List (List Char)
  | [] => [[]]
  | c :: cs =>
    if c = '.' then [] :: splitDots cs
    else
      match splitDots cs with
      | h :: t => (c :: h) :: t
      | [] => [[c]]

/-- Model of Python `".".join(parts)`. -/
def joinDots : List (List Char) → List Char
  | [] => []
  | [x] => x
  | x :: xs => x ++ '.' :: joinDots xs

/-- `compute_derived_variables`: derive `PYTHON_VERSION_NODOT`,
`GO_VERSION_SHORT` and `RUST_MSRV` from the base variable map. -/
def computeDerivedVariables (baseVars : List (String × String)) : List (String × String) :=
  let pyVer := (assq "PYTHON_VERSION" baseVars).getD "3.12"
  let goVer := (assq "GO_VERSION" baseVars).getD "1.22.0"
  let parts := splitDots goVer.data
  let goShort := if parts.length ≥ 2 then (⟨joinDots (parts.take 2)⟩ : String) else goVer
  let rustVer := (assq "RUST_VERSION" baseVars).getD "stable"
  let msrv := if rustVer = "stable" ∨ rustVer = "nightly" ∨ rustVer = "beta"
              then "1.75" else rustVer
  [ ("PYTHON_VERSION_NODOT", (⟨pyVer.data.filter (fun c => c ≠ '.')⟩ : String)),
    ("GO_VERSION_SHORT", goShort),
    ("RUST_MSRV", msrv) ]

/-- `TemplateEngine._load_variables`: resolve each base variable from the
environment (falling back to its default) and append the derived variables. -/
def loadVariables (env : List (String × String)) : List (String × String) :=
  let baseVars := VARIABLES.map (fun v => (v.1, envGet env v.2.1 v.2.2))
  baseVars ++ computeDerivedVariables baseVars

/-- Decimal digit test. -/
def isDig (c : Char) : Bool := '0' ≤ c && c ≤ '9'

/-- Numeric value of a decimal digit character. -/
def digitVal (c : Char) : Nat := c.toNat - '0'.toNat

/-- Scanner for the digit part of Python `int(str)`: digits with single
underscores allowed between digits only.  `pd` records whether the previous
character was a digit (an underscore is legal only after a digit, and the
string may not end right after an underscore). -/
def pyDigitsAux : Nat → Bool → List Char → Option Nat
  | acc, pd, [] => if pd then some acc else none
  | acc, pd, c :: cs =>
    if isDig c then pyDigitsAux (acc * 10 + digitVal c) true cs
    else if c = '_' && pd then pyDigitsAux acc false cs
    else none

/-- Digit-group parser: requires a leading digit. -/
def pyDigits : List Char → Option Nat
  | [] => none
  | c :: cs => if isDig c then pyDigitsAux (digitVal c) true cs else none

/-- ASCII whitespace as stripped by Python `str.strip` / `str.rstrip`. -/
def isPyWS (c : Char) : Bool :=
  c = ' ' || c = '\t' || c = '\n' || c = '\r' || c = '\x0b' || c = '\x0c'

/-- Model of Python `int(s)` for base 10: optional surrounding whitespace,
optional sign, then digits with single interior underscores; `none` models a
raised `ValueError`. -/
def pyInt (s : String) : Option Int :=
  let t := ((s.data.dropWhile isPyWS).reverse.dropWhile isPyWS).reverse
  match t with
  | '+' :: r => (pyDigits r).map (fun n => (n : Int))
  | '-' :: r => (pyDigits r).map (fun n => -(n : Int))
  | r => (pyDigits r).map (fun n => (n : Int))

/-- `_env_is_true(var)`: the environment value (default `"false"`),
lower-cased, must equal `"true"`. -/
def envIsTrue (varName : String) (env : List (String × String)) : Bool :=
  (asciiLower (envGet env varName "false")).data = "true".data

/-- `_coverage_enabled`: `COVERAGE_THRESHOLD` (default `"0"`) parses as an
integer greater than zero; a parse failure (Python `ValueError`) yields `false`. -/
def coverageEnabled (env : List (String × String)) : Bool :=
  match pyInt (envGet env "COVERAGE_THRESHOLD" "0") with
  | some n => decide (0 < n)
  | none => false

/-- `_has_services`: either Postgres or Redis is enabled. -/
def hasServices (env : List (String × String)) : Bool :=
  envIsTrue "INCLUDE_POSTGRES" env || envIsTrue "INCLUDE_REDIS" env

/-- The `CONDITIONS` registry mapping condition names to predicates over the
environment. -/
def CONDITIONS : List (String × (List (String × String) → Bool)) :=
  [ ("IF_PYTHON",           envIsTrue "INCLUDE_PYTHON"),
    ("IF_GO",               envIsTrue "INCLUDE_GO"),
    ("IF_NODE",             envIsTrue "INCLUDE_NODE"),
    ("IF_RUST",             envIsTrue "INCLUDE_RUST"),
    ("IF_POSTGRES",         envIsTrue "INCLUDE_POSTGRES"),
    ("IF_REDIS",            envIsTrue "INCLUDE_REDIS"),
    ("IF_HAS_SERVICES",     hasServices),
    ("IF_AI_SESSIONS",      envIsTrue "INCLUDE_AI_SESSIONS"),
    ("IF_AI_PROMPTS",       envIsTrue "INCLUDE_AI_PROMPTS"),
    ("IF_QUALITY_CHECKS",   envIsTrue "INCLUDE_QUALITY_CHECKS"),
    ("IF_COVERAGE_ENABLED", coverageEnabled),
    ("IF_PRECOMMIT",        envIsTrue "INCLUDE_PRECOMMIT"),
    ("IF_PULUMI",           envIsTrue "INCLUDE_PULUMI"),
    ("IF_GH_CLI",           envIsTrue "INCLUDE_GH_CLI"),
    ("IF_CLAUDE_CODE",      envIsTrue "INCLUDE_CLAUDE_CODE"),
    ("IF_INFISICAL",        envIsTrue "INCLUDE_INFISICAL"),
    ("IF_GCLOUD",           envIsTrue "INCLUDE_GCLOUD") ]

/-- Names registered in the `CONDITIONS` registry. -/
def conditionNames : List String := CONDITIONS.map (fun p => p.1)

/-- `TemplateEngine._evaluate_condition`: run the registered predicate, or
return `false` for an unknown condition. -/
def evaluateCondition (env : List (String × String)) (name : String) : Bool :=
  match assq name CONDITIONS with
  | some f => f env
  | none => false

/-- `_evaluate_condition` instrumented with its diagnostic behaviour: the
second component is `true` exactly when the unknown-condition warning is
printed to stderr. -/
def evaluateConditionW (env : List (String × String)) (name : String) : Bool × Bool :=
  match assq name CONDITIONS with
  | some f => (f env, false)
  | none => (false, true)

/-- Boolean check that `u` is a prefix of `s` (by characters). -/
def leadsWith : List Char → List Char → Bool
  | [], _ => true
  | _ :: _, [] => false
  | a :: as, b :: bs => if a = b then leadsWith as bs else false

/-- Characters allowed in a conditional directive name after `IF_`
(the regex class `[A-Z_]`). -/
def isCondChar (c : Char) : Bool := ('A' ≤ c && c ≤ 'Z') || c = '_'

/-- Attempt of the open-tag part of the regex
`\x7b\x7b#(IF_[A-Z_]+)\x7d\x7d` at the head of the input.  Returns the
captured condition name and the input after the tag.  The name run is maximal
(the regex `+` is greedy, and `\x7d` is not in `[A-Z_]`, so no backtracking
into the name can succeed). -/
def matchOpen (s : List Char) : Option (List Char × List Char) :=
  if leadsWith ['\x7b', '\x7b', '#', 'I', 'F', '_'] s then
    if ((s.drop 6).takeWhile isCondChar).isEmpty then none
    else
      if leadsWith ['\x7d', '\x7d'] ((s.drop 6).dropWhile isCondChar) then
        some ('I' :: 'F' :: '_' :: (s.drop 6).takeWhile isCondChar,
              ((s.drop 6).dropWhile isCondChar).drop 2)
      else none
  else none

/-- The close tag `\x7b\x7b/NAME\x7d\x7d` for a given condition name. -/
def closeTagOf (name : List Char) : List Char :=
  '\x7b' :: '\x7b' :: '/' :: name ++ ['\x7d', '\x7d']

/-- Find the first occurrence of the close tag for `name` (the non-greedy
`(.*?)` of the conditional regex): returns the span before the tag and the
input after it. -/
def findClose (name : List Char) : List Char → Option (List Char × List Char)
  | [] => none
  | c :: cs =>
    if leadsWith (closeTagOf name) (c :: cs) then
      some ([], (c :: cs).drop (closeTagOf name).length)
    else
      match findClose name cs with
      | some (b, r) => some (c :: b, r)
      | none => none

/-- Leftmost match of the conditional-block regex: at each position, try the
open tag and then search for the matching close tag; on failure advance one
character (as the regex engine does).  Returns
(text before the match, condition name, block content, text after the match). -/
def findMatch : List Char → Option (List Char × List Char × List Char × List Char)
  | [] => none
  | c :: cs =>
    match matchOpen (c :: cs) with
    | some (name, after) =>
      match findClose name after with
      | some (b, r) => some ([], name, b, r)
      | none =>
        match findMatch cs with
        | some (p, n, b, r) => some (c :: p, n, b, r)
        | none => none
    | none =>
      match findMatch cs with
      | some (p, n, b, r) => some (c :: p, n, b, r)
      | none => none

/-- The `\x7b\x7b#ELSE\x7d\x7d` marker. -/
def elseTag : List Char := '\x7b' :: '\x7b' :: '#' :: 'E' :: 'L' :: 'S' :: 'E' :: '\x7d' :: '\x7d' :: []

/-- `re.split` on the first `\x7b\x7b#ELSE\x7d\x7d` marker (maxsplit=1):
returns the if-branch and the else-branch (empty when the marker is absent). -/
def splitElse : List Char → List Char × List Char
  | [] => ([], [])
  | c :: cs =>
    if leadsWith elseTag (c :: cs) then ([], (c :: cs).drop elseTag.length)
    else ((c :: (splitElse cs).1), (splitElse cs).2)

/-- Branch selection in `replace_conditional`: split the block at the first
else marker and keep the if-branch when the condition holds, the else-branch
otherwise. -/
def selectBranch (ev : List Char → Bool) (name block : List Char) : List Char :=
  if ev name then (splitElse block).1 else (splitElse block).2

/-- One `re.sub` pass: replace every non-overlapping match left to right,
resuming after each matched span (replacements are not rescanned within the
pass).  `f` is fuel bounding the number of matches; `subPass` supplies enough. -/
def subPassFuel (repl : List Char → List Char → List Char) : Nat → List Char → List Char
  | 0, s => s
  | f + 1, s =>
    match findMatch s with
    | none => s
    | some (p, n, b, r) => p ++ repl n b ++ subPassFuel repl f r

/-- One `re.sub` pass over `s` (each match consumes at least one character,
so `s.length` units of fuel always suffice). -/
def subPass (repl : List Char → List Char → List Char) (s : List Char) : List Char :=
  subPassFuel repl s.length s

/-- The bounded fixed-point loop of `_process_conditionals`: apply `step` up
to `n` times, stopping when a pass leaves the text unchanged. -/
def pcIter (step : List Char → List Char) : Nat → List Char → List Char
  | 0, c => c
  | n + 1, c => if step c = c then c else pcIter step n (step c)

/-- `_process_conditionals` with explicit recursion fuel: each level runs the
20-pass loop, and `replace_conditional` recursively resolves the selected
branch at the next level down.  The branch is strictly shorter than the text,
so any fuel exceeding the input length computes the Python function. -/
def pcFuel (ev : List Char → Bool) : Nat → List Char → List Char
  | 0, s => s
  | f + 1, s =>
    pcIter (fun c => subPass (fun n b => pcFuel ev f (selectBranch ev n b)) c) 20 s

/-- `TemplateEngine._process_conditionals` over a character list, with the
canonical (always sufficient) fuel. -/
def processConditionals (ev : List Char → Bool) (s : List Char) : List Char :=
  pcFuel ev (s.length + 1) s

/-- Logged variant of `subPassFuel`: threads the list of condition names on
which `_evaluate_condition` has been called, in call order. -/
def subPassFuelLog (repl : List Char → List Char → List String → List Char × List String) :
    Nat → List Char → List String → List Char × List String
  | 0, s, g => (s, g)
  | f + 1, s, g =>
    match findMatch s with
    | none => (s, g)
    | some (p, n, b, r) =>
      let x := repl n b g
      let y := subPassFuelLog repl f r x.2
      (p ++ x.1 ++ y.1, y.2)

/-- Logged variant of `pcIter` (the fixed-point test compares text only, as
Python compares the content strings). -/
def pcIterLog (step : List Char → List String → List Char × List String) :
    Nat → List Char → List String → List Char × List String
  | 0, c, g => (c, g)
  | n + 1, c, g =>
    let x := step c g
    if x.1 = c then (c, x.2) else pcIterLog step n x.1 x.2

/-- Logged variant of `pcFuel`: each `replace_conditional` invocation records
the condition name it evaluates before recursing into the selected branch. -/
def pcFuelLog (ev : List Char → Bool) : Nat → List Char → List String → List Char × List String
  | 0, s, g => (s, g)
  | f + 1, s, g =>
    pcIterLog
      (fun c g' =>
        subPassFuelLog
          (fun n b g'' => pcFuelLog ev f (selectBranch ev n b) (g'' ++ [(⟨n⟩ : String)]))
          c.length c g')
      20 s g

/-- `_process_conditionals` wired to the engine's condition registry,
returning the resolved text together with the condition names evaluated. -/
def processConditionalsLog (env : List (String × String)) (s : String) : String × List String :=
  let r := pcFuelLog (fun n => evaluateCondition env ⟨n⟩) (s.data.length + 1) s.data []
  (⟨r.1⟩, r.2)

/-- First character of a variable name (the regex class `[A-Z]`). -/
def isVarStart (c : Char) : Bool := 'A' ≤ c && c ≤ 'Z'

/-- Subsequent characters of a variable name (the regex class `[A-Z0-9_]`). -/
def isVarChar (c : Char) : Bool := isVarStart c || isDig c || c = '_'

/-- Attempt of the variable regex `\x7b\x7b([A-Z][A-Z0-9_]*)\x7d\x7d` at the
head of the input (the lookbehind is handled by the caller).  Returns the
captured name and the input after the placeholder. -/
def matchVar (s : List Char) : Option (List Char × List Char) :=
  if leadsWith ['\x7b', '\x7b'] s then
    match s.drop 2 with
    | [] => none
    | c :: cs =>
      if isVarStart c then
        if leadsWith ['\x7d', '\x7d'] (cs.dropWhile isVarChar) then
          some (c :: cs.takeWhile isVarChar, (cs.dropWhile isVarChar).drop 2)
        else none
      else none
  else none

/-- The literal placeholder text `\x7b\x7bNAME\x7d\x7d` for a name. -/
def placeholderOf (name : List Char) : List Char :=
  '\x7b' :: '\x7b' :: name ++ ['\x7d', '\x7d']

/-- The `re.sub` scan of `_process_variables`: `prev` is the character before
the current position in the input (the `(?<!\$)` lookbehind); a matched
placeholder is replaced by its value, or left unchanged when the name is not
in `V` (`match.group(0)`).  Fuel bounds the scan; `subVars` supplies enough. -/
def subVarsFuel (V : List (String × String)) : Nat → Option Char → List Char → List Char
  | 0, _, s => s
  | _ + 1, _, [] => []
  | f + 1, prev, c :: cs =>
    match matchVar (c :: cs) with
    | some (name, rest) =>
      if prev = some '$' then c :: subVarsFuel V f (some c) cs
      else
        match assq ⟨name⟩ V with
        | some v => v.data ++ subVarsFuel V f (some '\x7d') rest
        | none => placeholderOf name ++ subVarsFuel V f (some '\x7d') rest
    | none => c :: subVarsFuel V f (some c) cs

/-- `TemplateEngine._process_variables` over a character list (each scan step
consumes at least one character, so `s.length` units of fuel always suffice). -/
def subVars (V : List (String × String)) (prev : Option Char) (s : List Char) : List Char :=
  subVarsFuel V s.length prev s

/-- `_process_variables` on strings: substitution with resolved set `V`. -/
def processVariables (V : List (String × String)) (s : String) : String :=
  ⟨subVars V none s.data⟩

/-- Model of Python `str.rstrip()`: remove all trailing whitespace. -/
def pyRstrip (s : List Char) : List Char :=
  (s.reverse.dropWhile isPyWS).reverse

/-- `TemplateEngine.process_string`: conditionals, then variables, then
normalize the tail to exactly one newline. -/
def processString (env : List (String × String)) (content : String) : String :=
  let c1 := processConditionals (fun n => evaluateCondition env ⟨n⟩) content.data
  let c2 := subVars (loadVariables env) none c1
  ⟨pyRstrip c2 ++ ['\n']⟩

/-- Structured error raised by `process_file` (line/context are never set by
this code path, so only message and path are modelled). -/
structure TemplateErrorModel where
  message : String
  file : Option String
  deriving DecidableEq

/-- Model of `pathlib.Path.write_text(content)`: the file is opened with
mode `w`.  If the open itself fails, the file is unchanged.  A successful
open truncates the file, after which the write stores `content` but may
raise after only a prefix has been written: `written` is the number of
characters stored before the failure (a value at or beyond the length means
the whole write succeeded).  There is no temp-file/rename step, so a failed
write leaves the truncated or partially written file in place.  Returns the
resulting file content and whether the call succeeded. -/
def pyWriteText (openOk : Bool) (written : Nat) (content : String)
    (file0 : Option String) : Option String × Bool :=
  if openOk = false then (file0, false)
  else if written < content.data.length then
    (some ⟨content.data.take written⟩, false)
  else (some content, true)

/-- `TemplateEngine.process_file` as a function of the outcome of each I/O
primitive: whether the input exists, the result of reading it (`none` models
a raised read error), whether `mkdir -p` on the output parent succeeds, and
the `write_text` outcome (`openOk`, `written`).  The first component is the
content of the output file afterwards (initially `out0`); the second is the
raised `TemplateError`, if any. -/
def processFileModel (env : List (String × String)) (inputPath outputPath : String)
    (inputExists : Bool) (readResult : Option String) (mkdirOk : Bool)
    (openOk : Bool) (written : Nat)
    (out0 : Option String) : Option String × Option TemplateErrorModel :=
  if inputExists = false then
    (out0, some ⟨"Template file not found", some inputPath⟩)
  else
    match readResult with
    | none => (out0, some ⟨"Failed to read template", some inputPath⟩)
    | some content =>
      let result := processString env content
      if mkdirOk = false then (out0, some ⟨"Failed to write output", some outputPath⟩)
      else
        let w := pyWriteText openOk written result out0
        if w.2 then (w.1, none)
        else (w.1, some ⟨"Failed to write output", some outputPath⟩)

/-- The fifteen `_env_is_true` toggles: condition name and environment key. -/
def togglePairs : List (String × String) :=
  [ ("IF_PYTHON", "INCLUDE_PYTHON"),
    ("IF_GO", "INCLUDE_GO"),
    ("IF_NODE", "INCLUDE_NODE"),
    ("IF_RUST", "INCLUDE_RUST"),
    ("IF_POSTGRES", "INCLUDE_POSTGRES"),
    ("IF_REDIS", "INCLUDE_REDIS"),
    ("IF_AI_SESSIONS", "INCLUDE_AI_SESSIONS"),
    ("IF_AI_PROMPTS", "INCLUDE_AI_PROMPTS"),
    ("IF_QUALITY_CHECKS", "INCLUDE_QUALITY_CHECKS"),
    ("IF_PRECOMMIT", "INCLUDE_PRECOMMIT"),
    ("IF_PULUMI", "INCLUDE_PULUMI"),
    ("IF_GH_CLI", "INCLUDE_GH_CLI"),
    ("IF_CLAUDE_CODE", "INCLUDE_CLAUDE_CODE"),
    ("IF_INFISICAL", "INCLUDE_INFISICAL"),
    ("IF_GCLOUD", "INCLUDE_GCLOUD") ]

/-- Values that cannot contribute to forming a placeholder or a `$` guard:
every value in `V` is nonempty and contains no brace, no dollar sign and no
name character `[A-Z0-9_]`. -/
def GoodVals (V : List (String × String)) : Prop :=
  ∀ p ∈ V, p.2.data ≠ [] ∧ ∀ c ∈ p.2.data,
    c ≠ '\x7b' ∧ c ≠ '\x7d' ∧ c ≠ '$' ∧ isVarChar c = false

/-- The character preceding the scan position after passing over `u`
(`prev` when `u` is empty, otherwise the last character of `u`). -/
def prevAfter (prev : Option Char) : List Char → Option Char
  | [] => prev
  | x :: u => prevAfter (some x) u

/-- Smoke checks from the spec's testable-properties section: derived
variables under the default environment, and the `IF_HAS_SERVICES` composite
condition end to end. -/
theorem engine_smoke_checks :
    assq "PYTHON_VERSION_NODOT" (loadVariables []) = some "312" ∧
    assq "GO_VERSION_SHORT" (loadVariables []) = some "1.22" ∧
    assq "RUST_MSRV" (loadVariables []) = some "1.75" ∧
    processString [("INCLUDE_POSTGRES", "true"), ("INCLUDE_REDIS", "false")]
      "\x7b\x7b#IF_HAS_SERVICES\x7d\x7dservices: yes\x7b\x7b#ELSE\x7d\x7dservices: no\x7b\x7b/IF_HAS_SERVICES\x7d\x7d"
      = "services: yes\n" ∧
    coverageEnabled [("COVERAGE_THRESHOLD", " 5 ")] = true := by
  refine ⟨by decide, by decide, by decide, by decide, by decide⟩

/-- Two strings with equal character data are equal. -/
theorem stringDataEq (a b : String) (h : a.data = b.data) : a = b := by
  cases a
  cases b
  simp only at h
  rw [h]

/-- A key absent from the keys of an association list looks up to `none`. -/
theorem assq_eq_none_of_not_mem {α : Type} (k : String) (l : List (String × α))
    (h : k ∉ l.map (fun p => p.1)) : assq k l = none := by
  induction l with
  | nil => rfl
  | cons p t ih =>
    simp only [List.map_cons, List.mem_cons] at h
    push_neg at h
    show assq k (p :: t) = none
    rw [assq]
    rw [if_neg (fun hd => h.1 (stringDataEq _ _ hd).symm)]
    exact ih h.2

/-- `envIsTrue` holds exactly when the lower-cased environment value is `"true"`. -/
theorem envIsTrue_iff (k : String) (env : List (String × String)) :
    envIsTrue k env = true ↔ asciiLower (envGet env k "false") = "true" := by
  simp only [envIsTrue, decide_eq_true_eq]
  exact ⟨fun h => stringDataEq _ _ h, fun h => by rw [h]⟩

/-- The head surviving `dropWhile` fails the predicate. -/
theorem head_dropWhile_not (p : Char → Bool) :
    ∀ (l : List Char) (ch : Char), (l.dropWhile p).head? = some ch → p ch = false := by
  intro l
  induction l with
  | nil => intro ch h; simp [List.dropWhile] at h
  | cons c cs ih =>
    intro ch h
    rw [List.dropWhile_cons] at h
    by_cases hc : p c = true
    · rw [if_pos hc] at h
      exact ih ch h
    · rw [if_neg hc] at h
      simp only [List.head?_cons, Option.some.injEq] at h
      subst h
      exact Bool.eq_false_iff.mpr hc

/-- The last character remaining after `pyRstrip` is never whitespace. -/
theorem pyRstrip_last (l : List Char) (ch : Char)
    (h : (pyRstrip l).getLast? = some ch) : isPyWS ch = false := by
  unfold pyRstrip at h
  rw [List.getLast?_reverse] at h
  exact head_dropWhile_not isPyWS _ ch h

/-- C1: the claim says the nested template resolves to `YB` with `IF_A` true
and `IF_B` false, the resolver matching the innermost pair first.  The code
does the opposite: the leftmost (outer) open tag `\x7b\x7b#IF_A\x7d\x7d` is
matched first, its non-greedy close is the final `\x7b\x7b/IF_A\x7d\x7d`, and
the span is split at the first — i.e. the inner — `\x7b\x7b#ELSE\x7d\x7d`
marker, so the selected if-branch is the unclosed fragment
`\x7b\x7b#IF_B\x7d\x7dXB`, which no further pass can rewrite.  The output is
`\x7b\x7b#IF_B\x7d\x7dXB`, not `YB`, contradicting both the spec and the
code's own docstring ("processes innermost first"). -/
theorem c1_nested_else_resolves_wrong :
    processConditionals (fun n => n = "IF_A".data)
      "\x7b\x7b#IF_A\x7d\x7d\x7b\x7b#IF_B\x7d\x7dXB\x7b\x7b#ELSE\x7d\x7dYB\x7b\x7b/IF_B\x7d\x7d\x7b\x7b#ELSE\x7d\x7dZA\x7b\x7b/IF_A\x7d\x7d".data
      = "\x7b\x7b#IF_B\x7d\x7dXB".data ∧
    "\x7b\x7b#IF_B\x7d\x7dXB".data ≠ "YB".data := by
  constructor
  · decide
  · decide

/-- C4: resolving the template with `IF_A` undeclared (hence false) and
`IF_B` undeclared yields exactly `Y`, and `_evaluate_condition` is called
only on `IF_A`: the discarded if-branch containing `IF_B` is never
evaluated, so no unknown-condition warning is produced for `IF_B`. -/
theorem c4_branch_short_circuit :
    (processConditionalsLog []
      "\x7b\x7b#IF_A\x7d\x7d\x7b\x7b#IF_B\x7d\x7dX\x7b\x7b/IF_B\x7d\x7d\x7b\x7b#ELSE\x7d\x7dY\x7b\x7b/IF_A\x7d\x7d").1
      = "Y" ∧
    "IF_B" ∉ (processConditionalsLog []
      "\x7b\x7b#IF_A\x7d\x7d\x7b\x7b#IF_B\x7d\x7dX\x7b\x7b/IF_B\x7d\x7d\x7b\x7b#ELSE\x7d\x7dY\x7b\x7b/IF_A\x7d\x7d").2 := by
  constructor
  · decide
  · decide

/-- C7: evaluating a condition name that is not registered in `CONDITIONS`
returns `false` together with the diagnostic warning flag, for every
environment; the function is total, so evaluation never raises or aborts. -/
theorem c7_unknown_condition_recovers :
    ∀ (env : List (String × String)) (name : String),
      name ∉ conditionNames → evaluateConditionW env name = (false, true) := by
  intro env name h
  unfold evaluateConditionW
  rw [assq_eq_none_of_not_mem name CONDITIONS h]

/-- C7 witness: the unregistered name `IF_NOT_A_THING` evaluates to `false`
with a warning under a non-trivial environment. -/
theorem c7_unknown_condition_recovers_witness :
    evaluateConditionW [("INCLUDE_PYTHON", "true")] "IF_NOT_A_THING" = (false, true) :=
  c7_unknown_condition_recovers [("INCLUDE_PYTHON", "true")] "IF_NOT_A_THING" (by decide)

/-- C9: each toggle condition holds exactly when its environment value,
lower-cased, equals `"true"`; a missing key (default `"false"`) and values
such as `"1"` or `"yes"` evaluate to `false`. -/
theorem c9_env_toggles :
    ∀ p ∈ togglePairs, ∀ env : List (String × String),
      (evaluateCondition env p.1 = true ↔ asciiLower (envGet env p.2 "false") = "true") ∧
      evaluateCondition [] p.1 = false ∧
      evaluateCondition [(p.2, "1")] p.1 = false ∧
      evaluateCondition [(p.2, "yes")] p.1 = false := by
  intro p hp env
  fin_cases hp <;>
    exact ⟨envIsTrue_iff _ env, by decide, by decide, by decide⟩

/-- C9 witness: `IF_PYTHON` with `INCLUDE_PYTHON=TRUE` satisfies the
characterization. -/
theorem c9_env_toggles_witness :
    (evaluateCondition [("INCLUDE_PYTHON", "TRUE")] "IF_PYTHON" = true ↔
        asciiLower (envGet [("INCLUDE_PYTHON", "TRUE")] "INCLUDE_PYTHON" "false") = "true") ∧
    evaluateCondition [] "IF_PYTHON" = false ∧
    evaluateCondition [("INCLUDE_PYTHON", "1")] "IF_PYTHON" = false ∧
    evaluateCondition [("INCLUDE_PYTHON", "yes")] "IF_PYTHON" = false :=
  c9_env_toggles ("IF_PYTHON", "INCLUDE_PYTHON") (by decide) [("INCLUDE_PYTHON", "TRUE")]

/-- C10: `IF_COVERAGE_ENABLED` is total and holds exactly when the
`COVERAGE_THRESHOLD` environment value parses as an integer strictly greater
than zero; a missing key defaults to `"0"` (false) and a non-integer value is
false rather than an error, while the variable registry's default for the
`\x7b\x7bCOVERAGE_THRESHOLD\x7d\x7d` placeholder is the different value `"80"`. -/
theorem c10_coverage_enabled :
    (∀ env : List (String × String),
        coverageEnabled env = true ↔
          ∃ n : Int, pyInt (envGet env "COVERAGE_THRESHOLD" "0") = some n ∧ 0 < n) ∧
    coverageEnabled [] = false ∧
    coverageEnabled [("COVERAGE_THRESHOLD", "abc")] = false ∧
    coverageEnabled [("COVERAGE_THRESHOLD", "80")] = true ∧
    assq "COVERAGE_THRESHOLD" VARIABLES = some ("COVERAGE_THRESHOLD", "80") := by
  refine ⟨fun env => ?_, by decide, by decide, by decide, by decide⟩
  unfold coverageEnabled
  rcases h : pyInt (envGet env "COVERAGE_THRESHOLD" "0") with _ | n
  · simp [h]
  · simp [h]

/-- C10 witness: with the threshold set to `5`, coverage is enabled and the
characterization produces the parsed integer. -/
theorem c10_coverage_enabled_witness :
    ∃ n : Int,
      pyInt (envGet [("COVERAGE_THRESHOLD", "5")] "COVERAGE_THRESHOLD" "0") = some n ∧ 0 < n :=
  (c10_coverage_enabled.1 [("COVERAGE_THRESHOLD", "5")]).mp (by decide)

/-- On the open-succeeded path with a write failing after `written`
characters, the output holds the written prefix and the error is raised. -/
theorem processFileModel_open2 (env : List (String × String)) (ip op : String)
    (content : String) (written : Nat) (out0 : Option String)
    (h : written < (processString env content).data.length) :
    processFileModel env ip op true (some content) true true written out0
      = (some ⟨(processString env content).data.take written⟩,
         some ⟨"Failed to write output", some op⟩) := by
  unfold processFileModel
  dsimp only
  have hwt : pyWriteText true written (processString env content) out0
      = (some ⟨(processString env content).data.take written⟩, false) := by
    unfold pyWriteText
    rw [if_neg (show ¬(true = false) by simp), if_pos h]
  rw [hwt]
  simp

/-- On the open-succeeded path with the whole write completing, the output
holds the complete processed text and no error is raised. -/
theorem processFileModel_open1 (env : List (String × String)) (ip op : String)
    (content : String) (written : Nat) (out0 : Option String)
    (h : (processString env content).data.length ≤ written) :
    processFileModel env ip op true (some content) true true written out0
      = (some (processString env content), none) := by
  unfold processFileModel
  dsimp only
  have hwt : pyWriteText true written (processString env content) out0
      = (some (processString env content), true) := by
    unfold pyWriteText
    rw [if_neg (show ¬(true = false) by simp), if_neg (not_lt.mpr h)]
  rw [hwt]
  simp

/-- C3 counterexample: `process_file` is not atomic with respect to the
output.  `write_text` opens the output with mode `w` — truncating it — and
then writes, so a write that fails after one character leaves the partial
file `"h"`: the run raises an error, yet the output is neither its previous
content `"old"` nor the complete processed text `"hi\n"`. -/
theorem c3_partial_write_counterexample :
    (processFileModel [] "in.tpl" "out.txt" true (some "hi") true true 1 (some "old")).2
        ≠ none ∧
    (processFileModel [] "in.tpl" "out.txt" true (some "hi") true true 1 (some "old")).1
        ≠ some "old" ∧
    (processFileModel [] "in.tpl" "out.txt" true (some "hi") true true 1 (some "old")).1
        ≠ some (processString [] "hi") ∧
    (processFileModel [] "in.tpl" "out.txt" true (some "hi") true true 1 (some "old")).1
        = some "h" := by
  refine ⟨by decide, by decide, by decide, by decide⟩

/-- C3 amended: every failure occurring before the output is opened for
writing (missing input, read failure, parent-directory creation failure,
failure to open the output) raises an error and leaves the output file
untouched; once the truncating open has succeeded, the output holds exactly
the written prefix of the fully processed text — the complete text without
error when the write finishes, and a truncated or partial file otherwise,
since `write_text` writes in place with no temp-file/rename step. -/
theorem c3_process_file_write_boundary :
    ∀ (env : List (String × String)) (ip op : String) (ex : Bool) (rr : Option String)
      (mk openOk : Bool) (written : Nat) (out0 : Option String),
      ((ex = false ∨ rr = none ∨ mk = false ∨ openOk = false) →
          (processFileModel env ip op ex rr mk openOk written out0).1 = out0 ∧
          (processFileModel env ip op ex rr mk openOk written out0).2 ≠ none) ∧
      (∀ content, rr = some content → ex = true → mk = true → openOk = true →
          (processFileModel env ip op ex rr mk openOk written out0).1
            = some ⟨(processString env content).data.take written⟩ ∧
          ((processFileModel env ip op ex rr mk openOk written out0).2 = none ↔
            (processString env content).data.length ≤ written)) := by
  intro env ip op ex rr mk openOk written out0
  constructor
  · intro hdisj
    cases ex with
    | false => simp [processFileModel]
    | true =>
      rcases rr with _ | content
      · simp [processFileModel]
      · cases mk with
        | false => simp [processFileModel]
        | true =>
          cases openOk with
          | false => simp [processFileModel, pyWriteText]
          | true => simp at hdisj
  · intro content hrr hex hmk hopen
    subst hrr
    subst hex
    subst hmk
    subst hopen
    by_cases hw : (processString env content).data.length ≤ written
    · rw [processFileModel_open1 env ip op content written out0 hw]
      refine ⟨?_, by simp; exact hw⟩
      show some (processString env content)
          = some ⟨(processString env content).data.take written⟩
      rw [List.take_of_length_le hw]
    · rw [processFileModel_open2 env ip op content written out0 (not_le.mp hw)]
      exact ⟨rfl, by simp; exact not_le.mp hw⟩

/-- C3 witness: a pre-open failure (missing input) leaves the prior content
in place with an error, and on the open-succeeded path with ample `written`
the output is the complete processed text. -/
theorem c3_process_file_write_boundary_witness :
    ((processFileModel [] "in.tpl" "out.txt" false none true true 0 (some "old")).1
        = some "old" ∧
      (processFileModel [] "in.tpl" "out.txt" false none true true 0 (some "old")).2
        ≠ none) ∧
    ((processFileModel [] "in.tpl" "out.txt" true (some "hi") true true 9 none).1
        = some ⟨(processString [] "hi").data.take 9⟩ ∧
      ((processFileModel [] "in.tpl" "out.txt" true (some "hi") true true 9 none).2 = none ↔
        (processString [] "hi").data.length ≤ 9)) :=
  ⟨(c3_process_file_write_boundary [] "in.tpl" "out.txt" false none true true 0
      (some "old")).1 (Or.inl rfl),
   (c3_process_file_write_boundary [] "in.tpl" "out.txt" true (some "hi") true true 9
      none).2 "hi" rfl rfl rfl rfl⟩

/-- C6: `process_string` is exactly conditional resolution, then variable
substitution, then trailing-whitespace normalization (strip all trailing
whitespace, append one newline); consequently every output ends in exactly
one trailing newline with no trailing whitespace before it. -/
theorem c6_process_string_normalizes :
    ∀ (env : List (String × String)) (content : String),
      processString env content =
        ⟨pyRstrip (subVars (loadVariables env) none
          (processConditionals (fun n => evaluateCondition env ⟨n⟩) content.data)) ++ ['\n']⟩ ∧
      ∃ t, (processString env content).data = t ++ ['\n'] ∧
        ∀ ch, t.getLast? = some ch → isPyWS ch = false := by
  intro env content
  refine ⟨rfl, pyRstrip (subVars (loadVariables env) none
    (processConditionals (fun n => evaluateCondition env ⟨n⟩) content.data)), rfl, ?_⟩
  intro ch h
  exact pyRstrip_last _ ch h

/-- C6 witness: a concrete input with trailing blank lines and no final
newline normalizes to a single trailing newline. -/
theorem c6_process_string_normalizes_witness :
    ∃ t, (processString [] "hi  \n \n").data = t ++ ['\n'] ∧
      ∀ ch, t.getLast? = some ch → isPyWS ch = false :=
  (c6_process_string_normalizes [] "hi  \n \n").2

/-- A successful `leadsWith` check decomposes the list as prefix plus rest. -/
theorem leadsWith_decomp :
    ∀ (u s : List Char), leadsWith u s = true → s = u ++ s.drop u.length := by
  intro u
  induction u with
  | nil => intro s _; simp
  | cons a as ih =>
    intro s h
    cases s with
    | nil => simp [leadsWith] at h
    | cons b bs =>
      rw [leadsWith] at h
      by_cases hab : a = b
      · subst hab
        rw [if_pos rfl] at h
        simp only [List.length_cons, List.drop_succ_cons, List.cons_append]
        exact congrArg (List.cons a) (ih bs h)
      · rw [if_neg hab] at h
        exact absurd h (by simp)

/-- Length of a close tag. -/
theorem closeTagOf_length (nm : List Char) : (closeTagOf nm).length = nm.length + 5 := by
  simp [closeTagOf]

/-- `matchOpen` consumes the name plus five tag characters, and the captured
name (`IF_` plus a nonempty run) has at least four characters. -/
theorem matchOpen_len :
    ∀ (s nm a : List Char), matchOpen s = some (nm, a) →
      s.length = nm.length + 5 + a.length ∧ 4 ≤ nm.length := by
  intro s nm a h
  unfold matchOpen at h
  by_cases h1 : leadsWith ['\x7b', '\x7b', '#', 'I', 'F', '_'] s = true
  · rw [if_pos h1] at h
    by_cases h2 : ((s.drop 6).takeWhile isCondChar).isEmpty
    · rw [if_pos h2] at h
      exact absurd h (by simp)
    · rw [if_neg h2] at h
      by_cases h3 : leadsWith ['\x7d', '\x7d'] ((s.drop 6).dropWhile isCondChar) = true
      · rw [if_pos h3] at h
        simp only [Option.some.injEq, Prod.mk.injEq] at h
        obtain ⟨hnm, ha⟩ := h
        subst hnm
        subst ha
        have hs6 : s = ['\x7b', '\x7b', '#', 'I', 'F', '_'] ++ s.drop 6 :=
          leadsWith_decomp _ s h1
        have hslen : s.length = 6 + (s.drop 6).length := by
          conv_lhs => rw [hs6]
          simp
          omega
        have hsplit : ((s.drop 6).takeWhile isCondChar).length
            + ((s.drop 6).dropWhile isCondChar).length = (s.drop 6).length := by
          rw [← List.length_append, List.takeWhile_append_dropWhile]
        have hdw : (s.drop 6).dropWhile isCondChar
            = ['\x7d', '\x7d'] ++ ((s.drop 6).dropWhile isCondChar).drop 2 :=
          leadsWith_decomp _ _ h3
        have hdwlen : ((s.drop 6).dropWhile isCondChar).length
            = 2 + (((s.drop 6).dropWhile isCondChar).drop 2).length := by
          conv_lhs => rw [hdw]
          simp
          omega
        have hne : ((s.drop 6).takeWhile isCondChar).length ≠ 0 := by
          intro h0
          exact h2 (by simpa [List.isEmpty_iff, List.length_eq_zero] using h0)
        simp only [List.length_cons]
        omega
      · rw [if_neg h3] at h
        exact absurd h (by simp)
  · rw [if_neg h1] at h
    exact absurd h (by simp)

/-- `findClose` decomposes its input as block plus close tag plus rest. -/
theorem findClose_len :
    ∀ (s nm b r : List Char), findClose nm s = some (b, r) →
      s.length = b.length + (nm.length + 5) + r.length := by
  intro s nm
  induction s with
  | nil => intro b r h; simp [findClose] at h
  | cons c cs ih =>
    intro b r h
    rw [findClose] at h
    by_cases hl : leadsWith (closeTagOf nm) (c :: cs)
    · rw [if_pos hl] at h
      simp only [Option.some.injEq, Prod.mk.injEq] at h
      obtain ⟨hb, hr⟩ := h
      subst hb
      subst hr
      have hdec := leadsWith_decomp (closeTagOf nm) (c :: cs) hl
      have hlen1 : (c :: cs).length
          = (closeTagOf nm).length + ((c :: cs).drop (closeTagOf nm).length).length := by
        conv_lhs => rw [hdec]
        simp
      have hct := closeTagOf_length nm
      simp only [List.length_nil]
      omega
    · rw [if_neg hl] at h
      rcases hf : findClose nm cs with _ | ⟨b', r'⟩ <;> rw [hf] at h
      · simp at h
      · simp only [Option.some.injEq, Prod.mk.injEq] at h
        obtain ⟨hb, hr⟩ := h
        subst hb
        subst hr
        have := ih b' r' hf
        simp only [List.length_cons]
        omega

/-- A conditional-block match accounts for at least 18 characters of tag
material beyond the prefix, block and rest. -/
theorem findMatch_len :
    ∀ (s p nm b r : List Char), findMatch s = some (p, nm, b, r) →
      p.length + b.length + r.length + 18 ≤ s.length := by
  intro s
  induction s with
  | nil => intro p nm b r h; simp [findMatch] at h
  | cons c cs ih =>
    intro p nm b r h
    rw [findMatch] at h
    rcases ho : matchOpen (c :: cs) with _ | ⟨nm', after⟩ <;> rw [ho] at h
    · simp only at h
      rcases hf : findMatch cs with _ | ⟨⟨p', n', b', r'⟩⟩ <;> rw [hf] at h
      · simp at h
      · simp only [Option.some.injEq, Prod.mk.injEq] at h
        obtain ⟨hp, hn, hb, hr⟩ := h
        subst hp
        subst hn
        subst hb
        subst hr
        have := ih p' n' b' r' hf
        simp only [List.length_cons]
        omega
    · simp only at h
      rcases hc : findClose nm' after with _ | ⟨⟨b₀, r₀⟩⟩ <;> rw [hc] at h
      · simp only at h
        rcases hf : findMatch cs with _ | ⟨⟨p', n', b', r'⟩⟩ <;> rw [hf] at h
        · simp at h
        · simp only [Option.some.injEq, Prod.mk.injEq] at h
          obtain ⟨hp, hn, hb, hr⟩ := h
          subst hp
          subst hn
          subst hb
          subst hr
          have := ih p' n' b' r' hf
          simp only [List.length_cons]
          omega
      · simp only [Option.some.injEq, Prod.mk.injEq] at h
        obtain ⟨hp, hn, hb, hr⟩ := h
        subst hp
        subst hn
        subst hb
        subst hr
        obtain ⟨h1, h1b⟩ := matchOpen_len (c :: cs) nm' after ho
        have h2 := findClose_len after nm' b₀ r₀ hc
        simp only [List.length_nil]
        omega

/-- Both halves produced by `splitElse` are no longer than the block. -/
theorem splitElse_len :
    ∀ b : List Char, (splitElse b).1.length ≤ b.length ∧ (splitElse b).2.length ≤ b.length := by
  intro b
  induction b with
  | nil => simp [splitElse]
  | cons c cs ih =>
    rw [splitElse]
    by_cases hl : leadsWith elseTag (c :: cs)
    · rw [if_pos hl]
      refine ⟨by simp, ?_⟩
      simp only [List.length_drop]
      omega
    · rw [if_neg hl]
      exact ⟨by simpa using Nat.succ_le_succ ih.1, le_trans ih.2 (by simp)⟩

/-- The selected branch is no longer than the block it came from. -/
theorem selectBranch_len (ev : List Char → Bool) (nm b : List Char) :
    (selectBranch ev nm b).length ≤ b.length := by
  unfold selectBranch
  by_cases h : ev nm = true
  · rw [if_pos h]; exact (splitElse_len b).1
  · rw [if_neg h]; exact (splitElse_len b).2

/-- A substitution pass never lengthens the text when replacements shrink. -/
theorem subPassFuel_len (repl : List Char → List Char → List Char)
    (hr : ∀ n b, (repl n b).length ≤ b.length) :
    ∀ (f : Nat) (s : List Char), (subPassFuel repl f s).length ≤ s.length := by
  intro f
  induction f with
  | zero => intro s; simp [subPassFuel]
  | succ f ih =>
    intro s
    rw [subPassFuel]
    rcases hm : findMatch s with _ | ⟨⟨p, nm, b, r⟩⟩
    · exact le_rfl
    · have h1 := findMatch_len s p nm b r hm
      have h2 := hr nm b
      have h3 := ih r
      simp only [List.length_append]
      omega

/-- The bounded loop never lengthens the text when the step shrinks. -/
theorem pcIter_len (step : List Char → List Char)
    (hs : ∀ c, (step c).length ≤ c.length) :
    ∀ (n : Nat) (c : List Char), (pcIter step n c).length ≤ c.length := by
  intro n
  induction n with
  | zero => intro c; simp [pcIter]
  | succ n ih =>
    intro c
    rw [pcIter]
    by_cases he : step c = c
    · rw [if_pos he]
    · rw [if_neg he]
      exact le_trans (ih (step c)) (hs c)

/-- Conditional resolution never lengthens the text. -/
theorem pcFuel_len (ev : List Char → Bool) :
    ∀ (f : Nat) (s : List Char), (pcFuel ev f s).length ≤ s.length := by
  intro f
  induction f with
  | zero => intro s; simp [pcFuel]
  | succ f ih =>
    intro s
    rw [pcFuel]
    exact pcIter_len _
      (fun c => subPassFuel_len _
        (fun n b => le_trans (ih (selectBranch ev n b)) (selectBranch_len ev n b)) c.length c)
      20 s

/-- A substitution pass only depends on the replacement function's values at
blocks shorter than the input. -/
theorem subPassFuel_congr :
    ∀ (f : Nat) (s : List Char) (r₁ r₂ : List Char → List Char → List Char),
      (∀ n b, b.length < s.length → r₁ n b = r₂ n b) →
      subPassFuel r₁ f s = subPassFuel r₂ f s := by
  intro f
  induction f with
  | zero => intro s r₁ r₂ _; rfl
  | succ f ih =>
    intro s r₁ r₂ h
    rw [subPassFuel, subPassFuel]
    rcases hm : findMatch s with _ | ⟨⟨p, nm, b, r⟩⟩
    · rfl
    · have hlen := findMatch_len s p nm b r hm
      show p ++ r₁ nm b ++ subPassFuel r₁ f r = p ++ r₂ nm b ++ subPassFuel r₂ f r
      rw [h nm b (by omega)]
      rw [ih r r₁ r₂ (fun n' b' hb => h n' b' (by omega))]

/-- The bounded loop only depends on the step function's values at texts no
longer than the start text. -/
theorem pcIter_congr (step₁ step₂ : List Char → List Char) (L : Nat)
    (hagree : ∀ c, c.length ≤ L → step₁ c = step₂ c)
    (hlen : ∀ c, (step₁ c).length ≤ c.length) :
    ∀ (n : Nat) (c : List Char), c.length ≤ L → pcIter step₁ n c = pcIter step₂ n c := by
  intro n
  induction n with
  | zero => intro c _; rfl
  | succ n ih =>
    intro c hc
    rw [pcIter, pcIter]
    rw [← hagree c hc]
    by_cases he : step₁ c = c
    · rw [if_pos he, if_pos he]
    · rw [if_neg he, if_neg he]
      exact ih (step₁ c) (le_trans (hlen c) hc)

/-- Resolution of the empty text is the empty text at any fuel. -/
theorem pcFuel_nil (ev : List Char → Bool) : ∀ f : Nat, pcFuel ev f [] = [] := by
  intro f
  cases f with
  | zero => rfl
  | succ f => rfl

/-- Fuel irrelevance: any two fuels exceeding the input length compute the
same resolution, because each recursive call strictly shrinks the text. -/
theorem pcFuel_stab (ev : List Char → Bool) :
    ∀ (L : Nat) (s : List Char) (f₁ f₂ : Nat),
      s.length ≤ L → s.length < f₁ → s.length < f₂ →
      pcFuel ev f₁ s = pcFuel ev f₂ s := by
  intro L
  induction L with
  | zero =>
    intro s f₁ f₂ hL _ _
    have hs : s = [] := List.length_eq_zero.mp (Nat.le_zero.mp hL)
    subst hs
    rw [pcFuel_nil, pcFuel_nil]
  | succ L ih =>
    intro s f₁ f₂ hL h1 h2
    rcases f₁ with _ | g₁
    · omega
    rcases f₂ with _ | g₂
    · omega
    rw [pcFuel, pcFuel]
    refine pcIter_congr _ _ s.length ?_ ?_ 20 s le_rfl
    · intro c hc
      refine subPassFuel_congr c.length c _ _ ?_
      intro n b hb
      have hsb := selectBranch_len ev n b
      exact ih (selectBranch ev n b) g₁ g₂ (by omega) (by omega) (by omega)
    · intro c
      exact subPassFuel_len _
        (fun n b => le_trans (pcFuel_len ev g₁ _) (selectBranch_len ev n b)) c.length c

/-- C5: conditional resolution is a total function on all inputs.  The
definition repeats the scan-and-replace pass to a fixed point with a 20-pass
ceiling, and every recursive call of `replace_conditional` resolves a branch
strictly shorter than the scanned text, so any recursion fuel exceeding the
input length computes the same (canonical) result; the branch handed to the
recursive call is a strict substring of the matched span. -/
theorem c5_resolution_total :
    (∀ (ev : List Char → Bool) (s : List Char) (f : Nat),
        s.length < f → pcFuel ev f s = processConditionals ev s) ∧
    (∀ (s p nm b r : List Char), findMatch s = some (p, nm, b, r) →
        (splitElse b).1.length < s.length ∧ (splitElse b).2.length < s.length) := by
  constructor
  · intro ev s f hf
    exact pcFuel_stab ev s.length s f (s.length + 1) le_rfl hf (Nat.lt_succ_self _)
  · intro s p nm b r h
    have h1 := findMatch_len s p nm b r h
    have h2 := splitElse_len b
    omega

/-- Elements of a `takeWhile` satisfy the predicate. -/
theorem mem_takeWhile_pred (p : Char → Bool) :
    ∀ (l : List Char) (x : Char), x ∈ l.takeWhile p → p x = true := by
  intro l
  induction l with
  | nil => intro x hx; simp [List.takeWhile] at hx
  | cons c cs ih =>
    intro x hx
    rw [List.takeWhile_cons] at hx
    by_cases hc : p c = true
    · rw [if_pos hc] at hx
      rcases List.mem_cons.mp hx with h | h
      · rw [h]; exact hc
      · exact ih x h
    · rw [if_neg hc] at hx
      simp at hx

/-- `takeWhile`/`dropWhile` of a run of satisfying characters followed by a
failing character split exactly at that character. -/
theorem takeWhile_append_not (p : Char → Bool) :
    ∀ (u : List Char) (y : Char) (t : List Char), (∀ x ∈ u, p x = true) → p y = false →
      (u ++ y :: t).takeWhile p = u ∧ (u ++ y :: t).dropWhile p = y :: t := by
  intro u
  induction u with
  | nil =>
    intro y t _ hy
    simp [List.takeWhile_cons, List.dropWhile_cons, hy]
  | cons a u ih =>
    intro y t hu hy
    have ha : p a = true := hu a (List.mem_cons_self a u)
    have ih' := ih y t (fun x hx => hu x (List.mem_cons_of_mem a hx)) hy
    simp [List.takeWhile_cons, List.dropWhile_cons, ha, ih'.1, ih'.2]

/-- Inversion of a successful variable-placeholder match: the input starts
with a literal well-formed placeholder whose name is a var-start character
followed by a run of name characters. -/
theorem matchVar_some :
    ∀ (s nm r : List Char), matchVar s = some (nm, r) →
      ∃ c run, nm = c :: run ∧ isVarStart c = true ∧ (∀ x ∈ run, isVarChar x = true) ∧
        s = '\x7b' :: '\x7b' :: c :: (run ++ '\x7d' :: '\x7d' :: r) := by
  intro s nm r h
  unfold matchVar at h
  by_cases h1 : leadsWith ['\x7b', '\x7b'] s = true
  · rw [if_pos h1] at h
    rcases hd : s.drop 2 with _ | ⟨c, cs⟩ <;> rw [hd] at h
    · simp at h
    · dsimp only at h
      by_cases h2 : isVarStart c = true
      · rw [if_pos h2] at h
        by_cases h3 : leadsWith ['\x7d', '\x7d'] (cs.dropWhile isVarChar) = true
        · rw [if_pos h3] at h
          simp only [Option.some.injEq, Prod.mk.injEq] at h
          obtain ⟨hnm, hr⟩ := h
          have hs2 : s = ['\x7b', '\x7b'] ++ s.drop 2 := leadsWith_decomp _ s h1
          obtain ⟨X, hX⟩ : ∃ X, cs.dropWhile isVarChar = '\x7d' :: '\x7d' :: X :=
            ⟨(cs.dropWhile isVarChar).drop 2, by simpa using leadsWith_decomp _ _ h3⟩
          have hrX : X = r := by
            rw [hX] at hr
            exact hr
          subst hrX
          have hcs : cs = cs.takeWhile isVarChar ++ ('\x7d' :: '\x7d' :: X) := by
            conv_lhs => rw [← List.takeWhile_append_dropWhile (p := isVarChar) (l := cs)]
            rw [hX]
          have hs3 : s = '\x7b' :: '\x7b' :: c :: cs := by
            rw [hd] at hs2
            simpa using hs2
          refine ⟨c, cs.takeWhile isVarChar, hnm.symm, h2,
            fun x hx => mem_takeWhile_pred isVarChar cs x hx, ?_⟩
          rw [hs3]
          exact congrArg (fun t => '\x7b' :: '\x7b' :: c :: t) hcs
        · rw [if_neg h3] at h
          exact absurd h (by simp)
      · rw [if_neg h2] at h
        exact absurd h (by simp)
  · rw [if_neg h1] at h
    exact absurd h (by simp)

/-- Construction of a variable-placeholder match from its parts. -/
theorem matchVar_mk (c : Char) (run z : List Char) (hc : isVarStart c = true)
    (hrun : ∀ x ∈ run, isVarChar x = true) :
    matchVar ('\x7b' :: '\x7b' :: c :: (run ++ '\x7d' :: '\x7d' :: z)) = some (c :: run, z) := by
  have htw := takeWhile_append_not isVarChar run '\x7d' ('\x7d' :: z) hrun (by decide)
  unfold matchVar
  rw [if_pos (show leadsWith ['\x7b', '\x7b']
    ('\x7b' :: '\x7b' :: c :: (run ++ '\x7d' :: '\x7d' :: z)) = true from rfl)]
  show (if isVarStart c = true then
          if leadsWith ['\x7d', '\x7d'] ((run ++ '\x7d' :: '\x7d' :: z).dropWhile isVarChar)
              = true then
            some (c :: (run ++ '\x7d' :: '\x7d' :: z).takeWhile isVarChar,
                  ((run ++ '\x7d' :: '\x7d' :: z).dropWhile isVarChar).drop 2)
          else none
        else none) = some (c :: run, z)
  rw [if_pos hc, htw.1, htw.2]
  rw [if_pos (show leadsWith ['\x7d', '\x7d'] ('\x7d' :: '\x7d' :: z) = true from rfl)]
  rfl

/-- A variable match consumes the name plus four brace characters. -/
theorem matchVar_len (s nm r : List Char) (h : matchVar s = some (nm, r)) :
    s.length = nm.length + 4 + r.length ∧ 1 ≤ nm.length := by
  obtain ⟨c, run, hnm, _, _, hs⟩ := matchVar_some s nm r h
  subst hnm
  subst hs
  simp only [List.length_cons, List.length_append]
  omega

/-- `subVarsFuel` on the empty text is empty at any fuel. -/
theorem subVarsFuel_nil (V : List (String × String)) :
    ∀ (f : Nat) (prev : Option Char), subVarsFuel V f prev [] = [] := by
  intro f prev
  cases f with
  | zero => rfl
  | succ f => rfl

/-- Fuel irrelevance for the substitution scan: any two fuels at least the
input length compute the same output. -/
theorem subVarsFuel_ext (V : List (String × String)) :
    ∀ (f₁ f₂ : Nat) (prev : Option Char) (s : List Char),
      s.length ≤ f₁ → s.length ≤ f₂ →
      subVarsFuel V f₁ prev s = subVarsFuel V f₂ prev s := by
  intro f₁
  induction f₁ with
  | zero =>
    intro f₂ prev s h1 _
    have hs : s = [] := List.length_eq_zero.mp (Nat.le_zero.mp h1)
    subst hs
    rw [subVarsFuel_nil, subVarsFuel_nil]
  | succ f ih =>
    intro f₂ prev s h1 h2
    cases s with
    | nil => rw [subVarsFuel_nil, subVarsFuel_nil]
    | cons c cs =>
      rcases f₂ with _ | g₂
      · simp at h2
      rw [subVarsFuel, subVarsFuel]
      simp only [List.length_cons] at h1 h2
      rcases hm : matchVar (c :: cs) with _ | ⟨nm, rest⟩
      · show c :: subVarsFuel V f (some c) cs = c :: subVarsFuel V g₂ (some c) cs
        rw [ih g₂ (some c) cs (by omega) (by omega)]
      · obtain ⟨hmlen, _⟩ := matchVar_len _ _ _ hm
        simp only [List.length_cons] at hmlen
        show (if prev = some '$' then c :: subVarsFuel V f (some c) cs
              else match assq ⟨nm⟩ V with
                | some v => v.data ++ subVarsFuel V f (some '\x7d') rest
                | none => placeholderOf nm ++ subVarsFuel V f (some '\x7d') rest)
            = (if prev = some '$' then c :: subVarsFuel V g₂ (some c) cs
              else match assq ⟨nm⟩ V with
                | some v => v.data ++ subVarsFuel V g₂ (some '\x7d') rest
                | none => placeholderOf nm ++ subVarsFuel V g₂ (some '\x7d') rest)
        by_cases hp : prev = some '$'
        · rw [if_pos hp, if_pos hp, ih g₂ (some c) cs (by omega) (by omega)]
        · rw [if_neg hp, if_neg hp, ih g₂ (some '\x7d') rest (by omega) (by omega)]

/-- `subVars` on the empty text. -/
theorem subVars_nil (V : List (String × String)) (prev : Option Char) :
    subVars V prev [] = [] := rfl

/-- Canonical one-step unfolding of the substitution scan. -/
theorem subVars_cons (V : List (String × String)) (prev : Option Char) (c : Char)
    (cs : List Char) :
    subVars V prev (c :: cs) =
      match matchVar (c :: cs) with
      | some (name, rest) =>
        if prev = some '$' then c :: subVars V (some c) cs
        else
          match assq ⟨name⟩ V with
          | some v => v.data ++ subVars V (some '\x7d') rest
          | none => placeholderOf name ++ subVars V (some '\x7d') rest
      | none => c :: subVars V (some c) cs := by
  show subVarsFuel V (cs.length + 1) prev (c :: cs) = _
  rw [subVarsFuel]
  rcases hm : matchVar (c :: cs) with _ | ⟨nm, rest⟩
  · rfl
  · obtain ⟨hmlen, _⟩ := matchVar_len _ _ _ hm
    simp only [List.length_cons] at hmlen
    show (if prev = some '$' then c :: subVarsFuel V cs.length (some c) cs
          else match assq ⟨nm⟩ V with
            | some v => v.data ++ subVarsFuel V cs.length (some '\x7d') rest
            | none => placeholderOf nm ++ subVarsFuel V cs.length (some '\x7d') rest)
        = (if prev = some '$' then c :: subVars V (some c) cs
          else match assq ⟨nm⟩ V with
            | some v => v.data ++ subVars V (some '\x7d') rest
            | none => placeholderOf nm ++ subVars V (some '\x7d') rest)
    have hr : subVarsFuel V cs.length (some '\x7d') rest = subVars V (some '\x7d') rest :=
      subVarsFuel_ext V cs.length rest.length (some '\x7d') rest (by omega) le_rfl
    rw [hr]
    rfl

/-- C5 witness: a fuel of 100 computes the canonical resolution of a concrete
template, and the branch of its unique match is strictly shorter than it. -/
theorem c5_resolution_total_witness :
    pcFuel (fun n => n = "IF_X".data) 100 "\x7b\x7b#IF_X\x7d\x7dok\x7b\x7b/IF_X\x7d\x7d".data
        = processConditionals (fun n => n = "IF_X".data)
            "\x7b\x7b#IF_X\x7d\x7dok\x7b\x7b/IF_X\x7d\x7d".data ∧
    (splitElse "ok".data).1.length < "\x7b\x7b#IF_X\x7d\x7dok\x7b\x7b/IF_X\x7d\x7d".data.length ∧
    (splitElse "ok".data).2.length < "\x7b\x7b#IF_X\x7d\x7dok\x7b\x7b/IF_X\x7d\x7d".data.length :=
  ⟨c5_resolution_total.1 (fun n => n = "IF_X".data)
      "\x7b\x7b#IF_X\x7d\x7dok\x7b\x7b/IF_X\x7d\x7d".data 100 (by decide),
   c5_resolution_total.2 "\x7b\x7b#IF_X\x7d\x7dok\x7b\x7b/IF_X\x7d\x7d".data
      [] "IF_X".data "ok".data [] (by decide)⟩

/-- A variable-start character is a name character. -/
theorem isVarChar_of_start (c : Char) (h : isVarStart c = true) : isVarChar c = true := by
  simp [isVarChar, h]

/-- A successful association-list lookup yields a member pair. -/
theorem assq_mem {α : Type} (k : String) (V : List (String × α)) (v : α)
    (h : assq k V = some v) : (k, v) ∈ V := by
  induction V with
  | nil => simp [assq] at h
  | cons p t ih =>
    rcases p with ⟨a, w⟩
    rw [assq] at h
    by_cases hd : a.data = k.data
    · rw [if_pos hd] at h
      injection h with h'
      subst h'
      have hak : a = k := stringDataEq a k hd
      subst hak
      exact List.mem_cons_self _ _
    · rw [if_neg hd] at h
      exact List.mem_cons_of_mem _ (ih h)

/-- `prevAfter` over a nonempty list is one of its members. -/
theorem prevAfter_mem :
    ∀ (u : List Char) (prev : Option Char), u ≠ [] →
      ∃ y ∈ u, prevAfter prev u = some y := by
  intro u
  induction u with
  | nil => intro prev h; exact absurd rfl h
  | cons x u ih =>
    intro prev _
    cases u with
    | nil => exact ⟨x, List.mem_cons_self _ _, rfl⟩
    | cons z zs =>
      obtain ⟨y, hy, he⟩ := ih (some x) (by simp)
      exact ⟨y, List.mem_cons_of_mem _ hy, he⟩

/-- The scan passes over a run of non-brace characters literally, updating
only the lookbehind character. -/
theorem subVars_skip (V : List (String × String)) :
    ∀ (u z : List Char) (prev : Option Char), (∀ x ∈ u, x ≠ '\x7b') →
      subVars V prev (u ++ z) = u ++ subVars V (prevAfter prev u) z := by
  intro u
  induction u with
  | nil => intro z prev _; rfl
  | cons x u ih =>
    intro z prev hu
    have hx : x ≠ '\x7b' := hu x (List.mem_cons_self _ _)
    rw [List.cons_append, subVars_cons]
    rcases hm : matchVar (x :: (u ++ z)) with _ | ⟨nm, rest⟩
    · dsimp only
      rw [ih z (some x) (fun y hy => hu y (List.mem_cons_of_mem _ hy))]
      rfl
    · obtain ⟨c₀, run, _, _, _, hs⟩ := matchVar_some _ _ _ hm
      injection hs with h1 _
      exact absurd h1 hx

/-- If the scan output starts with a run of name characters followed by a
closing brace, the input starts with that same literal text (values cannot
supply name characters or braces, and re-emitted placeholders start with an
opening brace), and the rest of the output is the scan of the rest of the
input with lookbehind `\x7d`. -/
theorem subVars_varRun (V : List (String × String)) (hV : GoodVals V) :
    ∀ (L : Nat) (s : List Char) (prev : Option Char) (u w : List Char),
      s.length ≤ L → (∀ x ∈ u, isVarChar x = true) →
      subVars V prev s = u ++ '\x7d' :: w →
      ∃ w₀, s = u ++ '\x7d' :: w₀ ∧ w = subVars V (some '\x7d') w₀ := by
  intro L
  induction L with
  | zero =>
    intro s prev u w hL _ heq
    have hs : s = [] := List.length_eq_zero.mp (Nat.le_zero.mp hL)
    subst hs
    rw [subVars_nil] at heq
    exact absurd heq.symm (by simp)
  | succ L ih =>
    intro s prev u w hL hu heq
    cases s with
    | nil =>
      rw [subVars_nil] at heq
      exact absurd heq.symm (by simp)
    | cons c cs =>
      simp only [List.length_cons] at hL
      rw [subVars_cons] at heq
      rcases hm : matchVar (c :: cs) with _ | ⟨nm, rest⟩ <;> rw [hm] at heq
      · dsimp only at heq
        cases u with
        | nil =>
          simp only [List.nil_append] at heq
          injection heq with h1 h2
          subst h1
          exact ⟨cs, by simp, h2.symm⟩
        | cons x u' =>
          simp only [List.cons_append] at heq
          injection heq with h1 h2
          subst h1
          obtain ⟨w₀, hw1, hw2⟩ := ih cs (some c) u' w (by omega)
            (fun y hy => hu y (List.mem_cons_of_mem _ hy)) h2
          exact ⟨w₀, by rw [hw1]; simp, hw2⟩
      · dsimp only at heq
        by_cases hp : prev = some '$'
        · rw [if_pos hp] at heq
          cases u with
          | nil =>
            simp only [List.nil_append] at heq
            injection heq with h1 h2
            subst h1
            exact ⟨cs, by simp, h2.symm⟩
          | cons x u' =>
            simp only [List.cons_append] at heq
            injection heq with h1 h2
            subst h1
            obtain ⟨w₀, hw1, hw2⟩ := ih cs (some c) u' w (by omega)
              (fun y hy => hu y (List.mem_cons_of_mem _ hy)) h2
            exact ⟨w₀, by rw [hw1]; simp, hw2⟩
        · rw [if_neg hp] at heq
          rcases ha : assq ⟨nm⟩ V with _ | v <;> rw [ha] at heq
          · dsimp only at heq
            obtain ⟨c₀, run, hnm, hc₀, hrun, hs⟩ := matchVar_some _ _ _ hm
            subst hnm
            simp only [placeholderOf, List.cons_append, List.append_assoc] at heq
            cases u with
            | nil =>
              simp only [List.nil_append] at heq
              injection heq with h1 _
              exact absurd h1 (by decide)
            | cons x u' =>
              simp only [List.cons_append] at heq
              injection heq with h1 _
              have hxc := hu x (List.mem_cons_self _ _)
              rw [← h1] at hxc
              exact absurd hxc (by decide)
          · dsimp only at heq
            have hmem := assq_mem ⟨nm⟩ V v ha
            have hVv := hV (⟨nm⟩, v) hmem
            rcases hvd : v.data with _ | ⟨hv, tv⟩
            · exact absurd hvd hVv.1
            · rw [hvd, List.cons_append] at heq
              have hvc := hVv.2 hv (by rw [hvd]; exact List.mem_cons_self _ _)
              cases u with
              | nil =>
                simp only [List.nil_append] at heq
                injection heq with h1 _
                exact absurd h1 hvc.2.1
              | cons x u' =>
                simp only [List.cons_append] at heq
                injection heq with h1 _
                have hxc := hu x (List.mem_cons_self _ _)
                rw [← h1] at hxc
                rw [hvc.2.2.2] at hxc
                exact Bool.noConfusion hxc

/-- If the text after an opening brace is a scan output and the combination
matches a placeholder, then the original text already matched that same
placeholder at the same position, and the rests correspond through the scan. -/
theorem matchVar_out (V : List (String × String)) (hV : GoodVals V) :
    ∀ (cs : List Char) (prev : Option Char) (nm r : List Char),
      matchVar ('\x7b' :: subVars V prev cs) = some (nm, r) →
      ∃ r₀, matchVar ('\x7b' :: cs) = some (nm, r₀) ∧ r = subVars V (some '\x7d') r₀ := by
  intro cs prev nm r h
  obtain ⟨c₀, run, hnm, hc₀, hrun, hs⟩ := matchVar_some _ _ _ h
  injection hs with _ hs1
  cases cs with
  | nil =>
    rw [subVars_nil] at hs1
    exact absurd hs1 (by simp)
  | cons d ds =>
    rw [subVars_cons] at hs1
    rcases hm2 : matchVar (d :: ds) with _ | ⟨nm₂, rest₂⟩ <;> rw [hm2] at hs1 <;>
      dsimp only at hs1
    · injection hs1 with hd1 hs2
      subst hd1
      have hs2' : subVars V (some '\x7b') ds = (c₀ :: run) ++ '\x7d' :: ('\x7d' :: r) := by
        rw [hs2]
        simp
      obtain ⟨w₀, hw1, hw2⟩ := subVars_varRun V hV ds.length ds (some '\x7b')
        (c₀ :: run) ('\x7d' :: r) le_rfl
        (by
          intro x hx
          rcases List.mem_cons.mp hx with h' | h'
          · subst h'
            exact isVarChar_of_start _ hc₀
          · exact hrun x h') hs2'
      obtain ⟨w₁, hw3, hw4⟩ := subVars_varRun V hV w₀.length w₀ (some '\x7d') [] r le_rfl
        (by simp) hw2.symm
      simp only [List.nil_append] at hw3
      refine ⟨w₁, ?_, hw4⟩
      rw [hw1, hw3, hnm]
      exact matchVar_mk c₀ run w₁ hc₀ hrun
    · by_cases hp2 : prev = some '$'
      · rw [if_pos hp2] at hs1
        injection hs1 with hd1 hs2
        subst hd1
        have hs2' : subVars V (some '\x7b') ds = (c₀ :: run) ++ '\x7d' :: ('\x7d' :: r) := by
          rw [hs2]
          simp
        obtain ⟨w₀, hw1, hw2⟩ := subVars_varRun V hV ds.length ds (some '\x7b')
          (c₀ :: run) ('\x7d' :: r) le_rfl
          (by
            intro x hx
            rcases List.mem_cons.mp hx with h' | h'
            · subst h'
              exact isVarChar_of_start _ hc₀
            · exact hrun x h') hs2'
        obtain ⟨w₁, hw3, hw4⟩ := subVars_varRun V hV w₀.length w₀ (some '\x7d') [] r le_rfl
          (by simp) hw2.symm
        simp only [List.nil_append] at hw3
        refine ⟨w₁, ?_, hw4⟩
        rw [hw1, hw3, hnm]
        exact matchVar_mk c₀ run w₁ hc₀ hrun
      · rw [if_neg hp2] at hs1
        rcases ha : assq ⟨nm₂⟩ V with _ | v <;> rw [ha] at hs1 <;> dsimp only at hs1
        · obtain ⟨c₂, run₂, hnm₂, hc₂, _, _⟩ := matchVar_some _ _ _ hm2
          subst hnm₂
          simp only [placeholderOf, List.cons_append, List.append_assoc] at hs1
          injection hs1 with _ h2
          injection h2 with h3 _
          rw [← h3] at hc₀
          exact absurd hc₀ (by decide)
        · have hmem := assq_mem ⟨nm₂⟩ V v ha
          have hVv := hV (⟨nm₂⟩, v) hmem
          rcases hvd : v.data with _ | ⟨hv, tv⟩
          · exact absurd hvd hVv.1
          · rw [hvd, List.cons_append] at hs1
            injection hs1 with h1 _
            have hvc := hVv.2 hv (by rw [hvd]; exact List.mem_cons_self _ _)
            exact absurd h1 hvc.1

/-- Idempotence of the substitution scan for value sets that cannot form new
placeholders: a second scan over the output of a first scan changes nothing,
provided the lookbehind characters agree on being the `$` guard. -/
theorem subVars_idem (V : List (String × String)) (hV : GoodVals V) :
    ∀ (L : Nat) (s : List Char) (p₁ p₂ : Option Char),
      s.length ≤ L → (p₁ = some '$' ↔ p₂ = some '$') →
      subVars V p₂ (subVars V p₁ s) = subVars V p₁ s := by
  intro L
  induction L with
  | zero =>
    intro s p₁ p₂ hL _
    have hs : s = [] := List.length_eq_zero.mp (Nat.le_zero.mp hL)
    subst hs
    rw [subVars_nil, subVars_nil]
  | succ L ih =>
    intro s p₁ p₂ hL hequiv
    cases s with
    | nil => rw [subVars_nil, subVars_nil]
    | cons c cs =>
      simp only [List.length_cons] at hL
      rw [subVars_cons V p₁ c cs]
      rcases hm : matchVar (c :: cs) with _ | ⟨nm, rest⟩
      · dsimp only
        rw [subVars_cons V p₂ c (subVars V (some c) cs)]
        rcases hm2 : matchVar (c :: subVars V (some c) cs) with _ | ⟨nm₂, r₂⟩
        · dsimp only
          rw [ih cs (some c) (some c) (by omega) Iff.rfl]
        · dsimp only
          by_cases hp2 : p₂ = some '$'
          · rw [if_pos hp2]
            rw [ih cs (some c) (some c) (by omega) Iff.rfl]
          · obtain ⟨c₂, run₂, _, _, _, hs₂⟩ := matchVar_some _ _ _ hm2
            have hc : c = '\x7b' := by
              injection hs₂ with h1 _
            subst hc
            obtain ⟨r₀, hr₀, _⟩ := matchVar_out V hV cs (some '\x7b') nm₂ r₂ hm2
            rw [hm] at hr₀
            exact Option.noConfusion hr₀
      · dsimp only
        by_cases hp1 : p₁ = some '$'
        · rw [if_pos hp1]
          have hp2 : p₂ = some '$' := hequiv.mp hp1
          rw [subVars_cons V p₂ c (subVars V (some c) cs)]
          rcases hm2 : matchVar (c :: subVars V (some c) cs) with _ | ⟨nm₂, r₂⟩
          · dsimp only
            rw [ih cs (some c) (some c) (by omega) Iff.rfl]
          · dsimp only
            rw [if_pos hp2]
            rw [ih cs (some c) (some c) (by omega) Iff.rfl]
        · rw [if_neg hp1]
          have hp2 : ¬p₂ = some '$' := fun h => hp1 (hequiv.mpr h)
          obtain ⟨c₀, run, hnm, hc₀, hrun, hs⟩ := matchVar_some _ _ _ hm
          have hlen : rest.length + 5 ≤ cs.length + 1 := by
            have hl := congrArg List.length hs
            simp only [List.length_cons, List.length_append] at hl
            omega
          subst hnm
          rcases ha : assq ⟨c₀ :: run⟩ V with _ | v
          · dsimp only
            have hform : placeholderOf (c₀ :: run) ++ subVars V (some '\x7d') rest
                = '\x7b' :: '\x7b' :: c₀ ::
                    (run ++ '\x7d' :: '\x7d' :: subVars V (some '\x7d') rest) := by
              simp [placeholderOf]
            rw [hform]
            rw [subVars_cons]
            rw [matchVar_mk c₀ run (subVars V (some '\x7d') rest) hc₀ hrun]
            dsimp only
            rw [if_neg hp2, ha]
            dsimp only
            rw [ih rest (some '\x7d') (some '\x7d') (by omega) Iff.rfl]
            exact hform
          · dsimp only
            have hmem := assq_mem ⟨c₀ :: run⟩ V v ha
            have hVv := hV (⟨c₀ :: run⟩, v) hmem
            rw [subVars_skip V v.data (subVars V (some '\x7d') rest) p₂
              (fun x hx => (hVv.2 x hx).1)]
            refine congrArg (fun t => v.data ++ t) ?_
            obtain ⟨y, hy, hpa⟩ := prevAfter_mem v.data p₂ hVv.1
            rw [hpa]
            refine ih rest (some '\x7d') (some y) (by omega) ?_
            constructor
            · intro h'
              exact absurd h' (by decide)
            · intro h'
              exfalso
              exact (hVv.2 y hy).2.2.1 (Option.some.inj h')

/-- C2 counterexample: with the resolved set `A ↦ "\x7b\x7bB\x7d\x7d", B ↦ "x"`,
substituting `\x7b\x7bA\x7d\x7d` once yields `\x7b\x7bB\x7d\x7d`, and a second
substitution rewrites that to `x`, so substitution is not idempotent for
arbitrary resolved sets: a value may itself contain a placeholder. -/
theorem c2_idempotence_counterexample :
    processVariables [("A", "\x7b\x7bB\x7d\x7d"), ("B", "x")]
        (processVariables [("A", "\x7b\x7bB\x7d\x7d"), ("B", "x")] "\x7b\x7bA\x7d\x7d")
      ≠ processVariables [("A", "\x7b\x7bB\x7d\x7d"), ("B", "x")] "\x7b\x7bA\x7d\x7d" := by
  decide

/-- C2 amended: substitution is idempotent for every text when no value of
the resolved set can contribute to forming a placeholder or a `$` guard —
each value is nonempty and contains no brace, no `$`, and no name character
`[A-Z0-9_]`.  (Unknown placeholders are re-emitted byte-for-byte, which the
proof handles separately: re-substituting them reproduces them unchanged.) -/
theorem c2_substitution_idempotent_inert :
    ∀ V : List (String × String), GoodVals V →
      ∀ t : String, processVariables V (processVariables V t) = processVariables V t := by
  intro V hV t
  show (⟨subVars V none (subVars V none t.data)⟩ : String) = ⟨subVars V none t.data⟩
  rw [subVars_idem V hV t.data.length t.data none none le_rfl (by simp)]

/-- C2 witness: a concrete inert value set is idempotent on a text mixing a
known placeholder, an unknown placeholder and a `$`-guarded placeholder. -/
theorem c2_substitution_idempotent_inert_witness :
    processVariables [("A", "ok")]
        (processVariables [("A", "ok")] "\x7b\x7bA\x7d\x7d $\x7b\x7bA\x7d\x7d \x7b\x7bZ\x7d\x7d")
      = processVariables [("A", "ok")] "\x7b\x7bA\x7d\x7d $\x7b\x7bA\x7d\x7d \x7b\x7bZ\x7d\x7d" :=
  c2_substitution_idempotent_inert [("A", "ok")]
    (by
      unfold GoodVals
      decide)
    "\x7b\x7bA\x7d\x7d $\x7b\x7bA\x7d\x7d \x7b\x7bZ\x7d\x7d"

/-- No placeholder match starts at a character other than an opening brace. -/
theorem matchVar_none_head (c : Char) (cs : List Char) (hne : c ≠ '\x7b') :
    matchVar (c :: cs) = none := by
  rcases h : matchVar (c :: cs) with _ | ⟨nm, r⟩
  · rfl
  · obtain ⟨c₀, run, _, _, _, hs⟩ := matchVar_some _ _ _ h
    injection hs with h1 _
    exact absurd h1 hne

/-- No placeholder match starts at an opening brace followed by anything
other than a second opening brace. -/
theorem matchVar_none_snd (b : Char) (cs : List Char) (hb : b ≠ '\x7b') :
    matchVar ('\x7b' :: b :: cs) = none := by
  rcases h : matchVar ('\x7b' :: b :: cs) with _ | ⟨nm, r⟩
  · rfl
  · obtain ⟨c₀, run, _, _, _, hs⟩ := matchVar_some _ _ _ h
    injection hs with _ h2
    injection h2 with h3 _
    exact absurd h3 hb

/-- A position with no placeholder match is copied literally, for any
lookbehind character. -/
theorem subVars_cons_lit (V : List (String × String)) (prev : Option Char) (c : Char)
    (cs : List Char) (h : matchVar (c :: cs) = none) :
    subVars V prev (c :: cs) = c :: subVars V (some c) cs := by
  rw [subVars_cons, h]

/-- A well-formed placeholder with a registered name, not guarded by `$`, is
replaced by its value in front of any continuation text. -/
theorem subVars_hit (V : List (String × String)) (prev : Option Char) (c₀ : Char)
    (run rest : List Char) (v : String)
    (hc : isVarStart c₀ = true) (hrun : ∀ x ∈ run, isVarChar x = true)
    (hprev : prev ≠ some '$') (ha : assq ⟨c₀ :: run⟩ V = some v) :
    subVars V prev (placeholderOf (c₀ :: run) ++ rest)
      = v.data ++ subVars V (some '\x7d') rest := by
  have hform : placeholderOf (c₀ :: run) ++ rest
      = '\x7b' :: '\x7b' :: c₀ :: (run ++ '\x7d' :: '\x7d' :: rest) := by
    simp [placeholderOf]
  rw [hform, subVars_cons, matchVar_mk c₀ run rest hc hrun]
  dsimp only
  rw [if_neg hprev, ha]

/-- A well-formed placeholder with an unregistered name, not guarded by `$`,
is re-emitted byte-for-byte in front of any continuation text. -/
theorem subVars_unknown (V : List (String × String)) (prev : Option Char) (c₀ : Char)
    (run rest : List Char)
    (hc : isVarStart c₀ = true) (hrun : ∀ x ∈ run, isVarChar x = true)
    (hprev : prev ≠ some '$') (ha : assq ⟨c₀ :: run⟩ V = none) :
    subVars V prev (placeholderOf (c₀ :: run) ++ rest)
      = placeholderOf (c₀ :: run) ++ subVars V (some '\x7d') rest := by
  have hform : placeholderOf (c₀ :: run) ++ rest
      = '\x7b' :: '\x7b' :: c₀ :: (run ++ '\x7d' :: '\x7d' :: rest) := by
    simp [placeholderOf]
  rw [hform, subVars_cons, matchVar_mk c₀ run rest hc hrun]
  dsimp only
  rw [if_neg hprev, ha]

/-- A well-formed placeholder immediately preceded by `$` is copied
byte-for-byte (the lookbehind blocks the match, and no match can start
inside the placeholder), and scanning continues after it. -/
theorem subVars_guarded (V : List (String × String)) (c₀ : Char) (run rest : List Char)
    (hc : isVarStart c₀ = true) (hrun : ∀ x ∈ run, isVarChar x = true) :
    subVars V (some '$') (placeholderOf (c₀ :: run) ++ rest)
      = placeholderOf (c₀ :: run) ++ subVars V (some '\x7d') rest := by
  have hc0ne : c₀ ≠ '\x7b' := by
    intro he
    rw [he] at hc
    exact absurd hc (by decide)
  have hnb : ∀ x ∈ c₀ :: run, x ≠ '\x7b' := by
    intro x hx
    rcases List.mem_cons.mp hx with h' | h'
    · subst h'
      exact hc0ne
    · intro he
      have hxv := hrun x h'
      rw [he] at hxv
      exact absurd hxv (by decide)
  have hform : placeholderOf (c₀ :: run) ++ rest
      = '\x7b' :: '\x7b' :: c₀ :: (run ++ '\x7d' :: '\x7d' :: rest) := by
    simp [placeholderOf]
  rw [hform, subVars_cons, matchVar_mk c₀ run rest hc hrun]
  dsimp only
  rw [if_pos rfl]
  rw [subVars_cons_lit V (some '\x7b') '\x7b' (c₀ :: (run ++ '\x7d' :: '\x7d' :: rest))
    (matchVar_none_snd c₀ (run ++ '\x7d' :: '\x7d' :: rest) hc0ne)]
  have hsplit : (c₀ :: (run ++ '\x7d' :: '\x7d' :: rest) : List Char)
      = (c₀ :: run) ++ ('\x7d' :: '\x7d' :: rest) := by simp
  rw [hsplit]
  rw [subVars_skip V (c₀ :: run) ('\x7d' :: '\x7d' :: rest) (some '\x7b') hnb]
  rw [subVars_cons_lit V (prevAfter (some '\x7b') (c₀ :: run)) '\x7d' ('\x7d' :: rest)
    (matchVar_none_head '\x7d' ('\x7d' :: rest) (by decide))]
  rw [subVars_cons_lit V (some '\x7d') '\x7d' rest
    (matchVar_none_head '\x7d' rest (by decide))]
  simp [placeholderOf]

/-- C8: variable substitution replaces exactly the unguarded well-formed
placeholders.  The laws below are universally quantified over the
surrounding text and lookbehind, and applied left to right they determine
the scan on every input: a placeholder `\x7b\x7bNAME\x7d\x7d` with `NAME`
in `[A-Z][A-Z0-9_]*`, not preceded by `$` and registered in `V`, is replaced
by its value; the same placeholder with an unregistered name is left
byte-for-byte unchanged; a placeholder preceded by `$` is left byte-for-byte
unchanged; brace-free text is copied literally, as is any position at which
no placeholder match starts; substitution is this scan started with no
preceding character; and in particular `\x7b\x7bNOT_DECLARED\x7d\x7d` passes
through `process_string` unchanged up to the final newline, for every
environment. -/
theorem c8_variable_substitution_scope :
    (∀ (V : List (String × String)) (prev : Option Char) (c₀ : Char)
        (run rest : List Char) (v : String),
        isVarStart c₀ = true → (∀ x ∈ run, isVarChar x = true) →
        prev ≠ some '$' → assq ⟨c₀ :: run⟩ V = some v →
        subVars V prev (placeholderOf (c₀ :: run) ++ rest)
          = v.data ++ subVars V (some '\x7d') rest) ∧
    (∀ (V : List (String × String)) (prev : Option Char) (c₀ : Char)
        (run rest : List Char),
        isVarStart c₀ = true → (∀ x ∈ run, isVarChar x = true) →
        prev ≠ some '$' → assq ⟨c₀ :: run⟩ V = none →
        subVars V prev (placeholderOf (c₀ :: run) ++ rest)
          = placeholderOf (c₀ :: run) ++ subVars V (some '\x7d') rest) ∧
    (∀ (V : List (String × String)) (c₀ : Char) (run rest : List Char),
        isVarStart c₀ = true → (∀ x ∈ run, isVarChar x = true) →
        subVars V (some '$') (placeholderOf (c₀ :: run) ++ rest)
          = placeholderOf (c₀ :: run) ++ subVars V (some '\x7d') rest) ∧
    (∀ (V : List (String × String)) (prev : Option Char) (u z : List Char),
        (∀ x ∈ u, x ≠ '\x7b') →
        subVars V prev (u ++ z) = u ++ subVars V (prevAfter prev u) z) ∧
    (∀ (V : List (String × String)) (prev : Option Char) (c : Char) (cs : List Char),
        matchVar (c :: cs) = none →
        subVars V prev (c :: cs) = c :: subVars V (some c) cs) ∧
    (∀ (V : List (String × String)) (s : String),
        processVariables V s = ⟨subVars V none s.data⟩) ∧
    (∀ env : List (String × String),
        processString env "\x7b\x7bNOT_DECLARED\x7d\x7d"
          = "\x7b\x7bNOT_DECLARED\x7d\x7d\n") :=
  ⟨subVars_hit, subVars_unknown, subVars_guarded,
   fun V prev u z h => subVars_skip V u z prev h, subVars_cons_lit,
   fun _ _ => rfl, fun _ => rfl⟩

/-- C8 witness: the laws applied at a concrete value set — a registered
placeholder is substituted, the same placeholder under a `$` guard is kept,
and an unregistered placeholder is kept. -/
theorem c8_variable_substitution_scope_witness :
    subVars [("AB", "v")] none (placeholderOf ('A' :: ['B']) ++ " t".data)
        = "v".data ++ subVars [("AB", "v")] (some '\x7d') " t".data ∧
    subVars [("AB", "v")] (some '$') (placeholderOf ('A' :: ['B']) ++ " t".data)
        = placeholderOf ('A' :: ['B']) ++ subVars [("AB", "v")] (some '\x7d') " t".data ∧
    subVars [("AB", "v")] none (placeholderOf ('Z' :: []) ++ " t".data)
        = placeholderOf ('Z' :: []) ++ subVars [("AB", "v")] (some '\x7d') " t".data :=
  ⟨c8_variable_substitution_scope.1 [("AB", "v")] none 'A' ['B'] " t".data "v"
      (by decide) (by decide) (by decide) (by decide),
   c8_variable_substitution_scope.2.2.1 [("AB", "v")] 'A' ['B'] " t".data
      (by decide) (by decide),
   c8_variable_substitution_scope.2.1 [("AB", "v")] none 'Z' [] " t".data
      (by decide) (by decide) (by decide) (by decide)⟩
